import Mathlib

/-!
Verification of `src/semigroups/cayley_graph.py` (class `CayleyGraph`).

The Python class keeps two pieces of state, created in `__init__`:
`_label_edge_list` (a Python list of `(label, (source, target))` tuples) and
`_graph` (a `networkx.classes.multidigraph.MultiDiGraph`).  The attribute
`_adjacencies_list`, returned by `ordered_adjacencies()`, is never assigned
inside the class: it is assigned by an external builder (the semigroup
enumeration code, not under `src/`), so here it is an `Option`, `none`
standing for the unset attribute (reading it raises `AttributeError`).

`networkx` is an external dependency; the fragment of its behaviour that the
class uses (`add_node`, `add_edge`, `nodes`, `strongly_connected_components`)
is modelled from its documented contract.
-/

/-- The fragment of `networkx.classes.multidigraph.MultiDiGraph` that
`CayleyGraph` uses, modelled by its documented behaviour: an
insertion-ordered node list (a node is stored once, at its first insertion)
and an insertion-ordered edge list that keeps parallel edges. -/
structure MultiDiGraph (Node : Type) where
  nodes : List Node
  edges : List (Node × Node)
deriving DecidableEq

variable {Node Node2 Label Label2 : Type}

/-- A fresh `MultiDiGraph()`. -/
def MultiDiGraph.empty : MultiDiGraph Node :=
  { nodes := [], edges := [] }

/-- `networkx` `MultiDiGraph.add_node`: inserts the node if absent, no-op if
already present. -/
def MultiDiGraph.add_node [DecidableEq Node] (g : MultiDiGraph Node) (n : Node) :
    MultiDiGraph Node :=
  if n ∈ g.nodes then g else { g with nodes := g.nodes ++ [n] }

/-- `networkx` `MultiDiGraph.add_edge`: auto-inserts both endpoints as nodes
(source first), then records the edge; parallel edges are kept. -/
def MultiDiGraph.add_edge [DecidableEq Node] (g : MultiDiGraph Node) (u v : Node) :
    MultiDiGraph Node :=
  let g' := (g.add_node u).add_node v
  { g' with edges := g'.edges ++ [(u, v)] }

/-- The state of a `CayleyGraph` object: the fields `_label_edge_list` and
`_graph` set by `__init__`, plus the externally assigned attribute
`_adjacencies_list` (`none` = never assigned). -/
structure CayleyGraph (Node Label : Type) where
  label_edge_list : List (Label × (Node × Node))
  graph : MultiDiGraph Node
  adjacencies_list : Option (List (List Node))
deriving DecidableEq

/-- `CayleyGraph.__init__`. -/
def CayleyGraph.init : CayleyGraph Node Label :=
  { label_edge_list := [], graph := MultiDiGraph.empty, adjacencies_list := none }

/-- `CayleyGraph._add_node`. -/
def CayleyGraph._add_node [DecidableEq Node] (g : CayleyGraph Node Label) (n : Node) :
    CayleyGraph Node Label :=
  { g with graph := g.graph.add_node n }

/-- `CayleyGraph._add_edge_with_label`. -/
def CayleyGraph._add_edge_with_label [DecidableEq Node] (g : CayleyGraph Node Label)
    (label : Label) (edge : Node × Node) : CayleyGraph Node Label :=
  { g with
    graph := g.graph.add_edge edge.1 edge.2
    label_edge_list := g.label_edge_list ++ [(label, edge)] }

/-- `CayleyGraph.ordered_adjacencies`: returns the stored attribute
`_adjacencies_list` (`none` models the `AttributeError` on a graph whose
attribute was never assigned). -/
def CayleyGraph.ordered_adjacencies (g : CayleyGraph Node Label) :
    Option (List (List Node)) :=
  g.adjacencies_list

/-- `CayleyGraph.edges`: `list(map(lambda x: x[1], self._label_edge_list))`. -/
def CayleyGraph.edges (g : CayleyGraph Node Label) : List (Node × Node) :=
  g.label_edge_list.map (fun x => x.2)

/-- `CayleyGraph.nodes`: `self._graph.nodes()`, the insertion-ordered node
sequence of the underlying multigraph. -/
def CayleyGraph.nodes (g : CayleyGraph Node Label) : List Node :=
  g.graph.nodes

/-- Result of evaluating a Python expression that may raise `AttributeError`. -/
inductive PyResult (α : Type) where
  | ok (a : α)
  | attributeError
deriving DecidableEq

/-- `CayleyGraph.__eq__` between two graphs over the same node type:
`self.ordered_adjacencies() == other.ordered_adjacencies()`; raises if either
attribute is unset. -/
def CayleyGraph.py_eq [DecidableEq Node] (g h : CayleyGraph Node Label) :
    PyResult Bool :=
  match g.ordered_adjacencies, h.ordered_adjacencies with
  | some a, some b => .ok (decide (a = b))
  | _, _ => .attributeError

/-- `CayleyGraph.__ne__`: `not self == other`; an exception propagates. -/
def CayleyGraph.py_ne [DecidableEq Node] (g h : CayleyGraph Node Label) :
    PyResult Bool :=
  match g.py_eq h with
  | .ok b => .ok (!b)
  | .attributeError => .attributeError

/-- The public mutations of the spec: `addNode` (`_add_node`) and
`addEdge(label, source, target)` (`_add_edge_with_label`). -/
inductive Op (Node Label : Type) where
  | addNode (n : Node)
  | addEdge (label : Label) (source target : Node)
deriving DecidableEq

/-- One mutation step on a `CayleyGraph`. -/
def applyOp [DecidableEq Node] (g : CayleyGraph Node Label) :
    Op Node Label → CayleyGraph Node Label
  | .addNode n => g._add_node n
  | .addEdge label s t => g._add_edge_with_label label (s, t)

/-- The graph obtained from `CayleyGraph()` by a sequence of mutations. -/
def build [DecidableEq Node] (ops : List (Op Node Label)) : CayleyGraph Node Label :=
  ops.foldl applyOp CayleyGraph.init

/-- Modelled from the spec: the adjacency list that the external builder (the
semigroup enumeration code, not under `src/`) assigns to `_adjacencies_list`.
Spec 4.3: iterate edges in insertion order, append each target to its source
node's bucket, reindex buckets by node-insertion order; so bucket `i` is the
insertion-ordered list of targets of edges whose source is node `i`. -/
def computeAdjacencies [DecidableEq Node] (V : List Node) (E : List (Node × Node)) :
    List (List Node) :=
  V.map (fun v => (E.filter (fun e => decide (e.1 = v))).map (fun e => e.2))

/-- Modelled from the spec: the external builder's assignment
`G._adjacencies_list = ...`, computed from the current node and edge
sequences. -/
def set_adjacencies [DecidableEq Node] (g : CayleyGraph Node Label) :
    CayleyGraph Node Label :=
  { g with adjacencies_list := some (computeAdjacencies g.nodes g.edges) }

/-- A Python value appearing on the right-hand side of `G == x`:
a `CayleyGraph` over the same node type, a `CayleyGraph` over an unrelated
node type, or an object with no `ordered_adjacencies` attribute. -/
inductive PyObj (Node Node2 Label Label2 : Type) where
  | graph (g : CayleyGraph Node Label)
  | foreignGraph (h : CayleyGraph Node2 Label2)
  | other

/-- Python `==` on two lists of lists whose innermost elements have unrelated
types (e.g. `int` nodes against `Transformation` nodes): list comparison is
by length and elementwise `==`, and `==` across unrelated element types
returns `False` without raising.  So the comparison is `True` exactly when
both levels of lengths agree and every inner list is empty. -/
def crossListEq (xs : List (List Node)) (ys : List (List Node2)) : Bool :=
  decide (xs.length = ys.length) &&
    (xs.zip ys).all (fun p =>
      decide (p.1.length = p.2.length) && (p.1.zip p.2).all (fun _ => false))

/-- `CayleyGraph.__eq__` under Python's dynamic typing: the right-hand side
may be any object.  `other.ordered_adjacencies()` raises `AttributeError` on
an object without that attribute; comparing adjacency lists over unrelated
node types silently returns a `bool`. -/
def CayleyGraph.py_eq_dyn [DecidableEq Node] [DecidableEq Node2]
    (g : CayleyGraph Node Label) (x : PyObj Node Node2 Label Label2) :
    PyResult Bool :=
  match g.ordered_adjacencies with
  | none => .attributeError
  | some a =>
    match x with
    | .graph h =>
      match h.ordered_adjacencies with
      | some b => .ok (decide (a = b))
      | none => .attributeError
    | .foreignGraph h =>
      match h.ordered_adjacencies with
      | some b => .ok (crossListEq a b)
      | none => .attributeError
    | .other => .attributeError

/-- One directed step along an edge of `E`: labels are already stripped and
multiplicity is irrelevant, only membership matters. -/
def EdgeStep (E : List (Node × Node)) (u v : Node) : Prop :=
  (u, v) ∈ E

/-- `u` reaches `v` by a directed path along edges of `E`. -/
def Reaches (E : List (Node × Node)) (u v : Node) : Prop :=
  Relation.ReflTransGen (EdgeStep E) u v

/-- Fuelled reachability: `reachB E n u v` decides whether some directed walk
of at most `n` edges joins `u` to `v`. -/
def reachB [DecidableEq Node] (E : List (Node × Node)) : Nat → Node → Node → Bool
  | 0, u, v => decide (u = v)
  | n + 1, u, v =>
    decide (u = v) || E.any (fun e => decide (e.1 = u) && reachB E n e.2 v)

/-- A directed walk from `u` to `v` whose node sequence is `l`. -/
inductive Walk (E : List (Node × Node)) : Node → Node → List Node → Prop where
  | nil (u : Node) : Walk E u u [u]
  | cons {u w v : Node} {l : List Node} :
      (u, w) ∈ E → Walk E w v l → Walk E u v (u :: l)


/-- Mutual reachability on the underlying multigraph, decided with fuel
`g.graph.nodes.length`. -/
def CayleyGraph.sccRel [DecidableEq Node] (g : CayleyGraph Node Label)
    (u v : Node) : Bool :=
  reachB g.graph.edges g.graph.nodes.length u v &&
    reachB g.graph.edges g.graph.nodes.length v u

/-- The strongly connected component of `u`: the nodes mutually reachable
with `u`, in node-insertion order. -/
def CayleyGraph.sccOf [DecidableEq Node] (g : CayleyGraph Node Label)
    (u : Node) : List Node :=
  g.graph.nodes.filter (fun v => g.sccRel u v)

/-- Accumulate a representative for each component, keeping the first node
of each component in node order. -/
def sccStep [DecidableEq Node] (g : CayleyGraph Node Label)
    (acc : List Node) (u : Node) : List Node :=
  if acc.any (fun r => g.sccRel r u) then acc else acc ++ [u]

/-- One representative per strongly connected component. -/
def CayleyGraph.sccReps [DecidableEq Node] (g : CayleyGraph Node Label) :
    List Node :=
  g.graph.nodes.foldl (sccStep g) []

/-- `CayleyGraph.strongly_connected_components`:
`list(networkx.strongly_connected_components(self._graph))`.  `networkx` is a
dependency external to the repository, so it is modelled by its documented
contract: the collection of strongly connected components of the graph, each
component being the set of nodes mutually reachable from a representative
(here each component is listed once, as the insertion-ordered list of the
nodes it contains). -/
def CayleyGraph.strongly_connected_components [DecidableEq Node]
    (g : CayleyGraph Node Label) : List (List Node) :=
  g.sccReps.map g.sccOf

/-- A concrete two-node graph with a directed cycle, used to instantiate
hypothesis-bearing theorems. -/
def gW1 : CayleyGraph Nat Nat := build [Op.addEdge 0 0 1, Op.addEdge 1 1 0]

/-- The `(source, target)` pairs of the `addEdge` operations of a mutation
sequence, in call order. -/
def addEdgePairs : List (Op Node Label) → List (Node × Node)
  | [] => []
  | Op.addNode _ :: rest => addEdgePairs rest
  | Op.addEdge _ s t :: rest => (s, t) :: addEdgePairs rest

/-- The nodes referenced by a mutation sequence, in reference order
(`addEdge` references its source, then its target). -/
def nodeRefs : List (Op Node Label) → List Node
  | [] => []
  | Op.addNode n :: rest => n :: nodeRefs rest
  | Op.addEdge _ s t :: rest => s :: t :: nodeRefs rest

/-- Append a node to a list unless it is already present. -/
def insertNew [DecidableEq Node] (l : List Node) (n : Node) : List Node :=
  if n ∈ l then l else l ++ [n]

/-- Keep the first occurrence of every element, in order of first
occurrence. -/
def firstOccurrences [DecidableEq Node] (l : List Node) : List Node :=
  l.foldl insertNew []

/-- A one-edge graph whose `_adjacencies_list` has been assigned by the
external builder, then mutated by one further `addEdge`. -/
def gStale : CayleyGraph Nat Nat :=
  applyOp (set_adjacencies (build [Op.addEdge 0 0 1])) (Op.addEdge 0 1 0)

/-- Total number of adjacency entries across all buckets. -/
def totalEntries (A : List (List Node)) : Nat :=
  (A.map List.length).sum

/-- A graph over `String` nodes with one self-loop, adjacency list
assigned; its node type is incompatible with `Nat` nodes. -/
def gForeign : CayleyGraph String Nat :=
  set_adjacencies (build [Op.addEdge 0 "a" "a"])

/-- A graph over `Nat` nodes with one self-loop. -/
def gBase : CayleyGraph Nat Nat := build [Op.addEdge 0 0 0]

/-- A graph over `Nat` nodes with one self-loop, adjacency list assigned. -/
def gNat : CayleyGraph Nat Nat := set_adjacencies gBase

theorem Walk.ne_nil {E : List (Node × Node)} {u v : Node} {l : List Node}
    (h : Walk E u v l) : l ≠ [] := by
  cases h <;> simp

theorem Walk.head_eq {E : List (Node × Node)} {u v : Node} {l : List Node}
    (h : Walk E u v l) : ∃ t, l = u :: t := by
  cases h <;> exact ⟨_, rfl⟩

theorem Walk.reaches {E : List (Node × Node)} {u v : Node} {l : List Node}
    (h : Walk E u v l) : Reaches E u v := by
  induction h with
  | nil => exact Relation.ReflTransGen.refl
  | cons he _ ih => exact Relation.ReflTransGen.head he ih

theorem exists_walk_of_reaches {E : List (Node × Node)} {u v : Node}
    (h : Reaches E u v) : ∃ l, Walk E u v l := by
  induction h using Relation.ReflTransGen.head_induction_on with
  | refl => exact ⟨[v], Walk.nil v⟩
  | head hr _ ih =>
    obtain ⟨l, hl⟩ := ih
    exact ⟨_, Walk.cons hr hl⟩

theorem Walk.mem_of_closed {E : List (Node × Node)} {V : List Node}
    (hE : ∀ e ∈ E, e.2 ∈ V) {u v : Node} {l : List Node}
    (h : Walk E u v l) (hu : u ∈ V) : ∀ x ∈ l, x ∈ V := by
  induction h with
  | nil => simpa using hu
  | cons he hw ih =>
    intro x hx
    rcases List.mem_cons.1 hx with rfl | hx
    · exact hu
    · exact ih (hE _ he) x hx

theorem Walk.cons_inv {E : List (Node × Node)} {u v y : Node} {l : List Node}
    (h : Walk E u v (y :: l)) (hl : l ≠ []) :
    u = y ∧ ∃ w, (u, w) ∈ E ∧ Walk E w v l := by
  cases h with
  | nil => exact absurd rfl hl
  | cons he hw => exact ⟨rfl, _, he, hw⟩

theorem Walk.suffix {E : List (Node × Node)} {v w : Node} {l₂ : List Node} :
    ∀ {l₁ : List Node} {u : Node}, Walk E u v (l₁ ++ w :: l₂) →
      Walk E w v (w :: l₂) := by
  intro l₁
  induction l₁ with
  | nil =>
    intro u h
    obtain ⟨t, ht⟩ := h.head_eq
    simp only [List.nil_append] at ht
    cases ht
    simpa using h
  | cons y l₁ ih =>
    intro u h
    rw [List.cons_append] at h
    obtain ⟨rfl, w', hw', hwalk⟩ := h.cons_inv (by simp)
    exact ih hwalk

theorem Walk.cut {E : List (Node × Node)} {v x : Node} {b c : List Node} :
    ∀ {a : List Node} {u : Node}, Walk E u v (a ++ x :: b ++ x :: c) →
      Walk E u v (a ++ x :: c) := by
  intro a
  induction a with
  | nil =>
    intro u h
    simp only [List.nil_append] at h ⊢
    obtain ⟨t, ht⟩ := h.head_eq
    obtain ⟨h1, -⟩ := List.cons.inj ht
    subst h1
    have hsh : Walk E x v ((x :: b) ++ x :: c) := by simpa using h
    exact hsh.suffix
  | cons y a ih =>
    intro u h
    rw [List.cons_append] at h
    obtain ⟨rfl, w', hw', hwalk⟩ := h.cons_inv (by simp)
    rw [List.cons_append]
    exact Walk.cons hw' (ih hwalk)

theorem not_nodup_split {l : List Node} (h : ¬ l.Nodup) :
    ∃ a x b c, l = a ++ x :: b ++ x :: c := by
  induction l with
  | nil => exact absurd List.nodup_nil h
  | cons y t ih =>
    by_cases hy : y ∈ t
    · obtain ⟨s, t', rfl⟩ := List.append_of_mem hy
      exact ⟨[], y, s, t', by simp⟩
    · have ht : ¬ t.Nodup := fun hn => h (List.nodup_cons.2 ⟨hy, hn⟩)
      obtain ⟨a, x, b, c, rfl⟩ := ih ht
      exact ⟨y :: a, x, b, c, by simp⟩

theorem walk_shorten {E : List (Node × Node)} {u v : Node} :
    ∀ (n : Nat) (l : List Node), l.length ≤ n → Walk E u v l →
      ∃ l', Walk E u v l' ∧ l'.Nodup ∧ l' ⊆ l := by
  intro n
  induction n with
  | zero =>
    intro l hl hw
    have : l = [] := List.eq_nil_of_length_eq_zero (Nat.le_zero.1 hl)
    exact ⟨l, hw, by simp [this], List.Subset.refl l⟩
  | succ n ih =>
    intro l hl hw
    by_cases hnd : l.Nodup
    · exact ⟨l, hw, hnd, List.Subset.refl l⟩
    · obtain ⟨a, x, b, c, rfl⟩ := not_nodup_split hnd
      have hw' : Walk E u v (a ++ x :: c) := hw.cut
      have hlen : (a ++ x :: c).length ≤ n := by
        simp only [List.length_append, List.length_cons] at hl ⊢
        omega
      obtain ⟨l', hwl', hnd', hsub⟩ := ih (a ++ x :: c) hlen hw'
      refine ⟨l', hwl', hnd', fun z hz => ?_⟩
      have := hsub hz
      simp only [List.mem_append, List.mem_cons] at this ⊢
      tauto

theorem reachB_refl [DecidableEq Node] (E : List (Node × Node)) (n : Nat)
    (u : Node) : reachB E n u u = true := by
  cases n <;> simp [reachB]

theorem reachB_of_walk [DecidableEq Node] {E : List (Node × Node)}
    {u v : Node} {l : List Node} (h : Walk E u v l) :
    ∀ {n : Nat}, l.length ≤ n + 1 → reachB E n u v = true := by
  induction h with
  | nil => exact fun _ => reachB_refl E _ _
  | cons he hw ih =>
    intro n hn
    match n with
    | 0 =>
      exfalso
      have := hw.ne_nil
      simp only [List.length_cons, Nat.add_le_add_iff_right, Nat.le_zero] at hn
      exact this (List.eq_nil_of_length_eq_zero hn)
    | m + 1 =>
      simp only [reachB, Bool.or_eq_true, List.any_eq_true, Bool.and_eq_true,
        decide_eq_true_eq]
      refine Or.inr ⟨_, he, rfl, ih ?_⟩
      simpa using hn

theorem reaches_of_reachB [DecidableEq Node] {E : List (Node × Node)} :
    ∀ {n : Nat} {u v : Node}, reachB E n u v = true → Reaches E u v := by
  intro n
  induction n with
  | zero =>
    intro u v h
    simp only [reachB, decide_eq_true_eq] at h
    exact h ▸ Relation.ReflTransGen.refl
  | succ n ih =>
    intro u v h
    simp only [reachB, Bool.or_eq_true, List.any_eq_true, Bool.and_eq_true,
      decide_eq_true_eq] at h
    rcases h with h | ⟨e, he, h1, h2⟩
    · exact h ▸ Relation.ReflTransGen.refl
    · exact Relation.ReflTransGen.head (show EdgeStep E u e.2 from h1 ▸ he) (ih h2)

/-- On a node list `V` closed under edge targets, fuel `V.length` decides
reachability exactly. -/
theorem reachB_iff_reaches [DecidableEq Node] {E : List (Node × Node)}
    {V : List Node} (hE : ∀ e ∈ E, e.2 ∈ V) {u v : Node} (hu : u ∈ V) :
    reachB E V.length u v = true ↔ Reaches E u v := by
  constructor
  · exact reaches_of_reachB
  · intro h
    obtain ⟨l, hl⟩ := exists_walk_of_reaches h
    obtain ⟨l', hw', hnd', hsub'⟩ := walk_shorten l.length l (Nat.le_refl _) hl
    have hlV : l' ⊆ V := fun z hz =>
      Walk.mem_of_closed hE hl hu z (hsub' hz)
    have hlen : l'.length ≤ V.length := (hnd'.subperm hlV).length_le
    exact reachB_of_walk hw' (Nat.le_succ_of_le hlen)

theorem sccRel_refl [DecidableEq Node] (g : CayleyGraph Node Label) (u : Node) :
    g.sccRel u u = true := by
  simp [CayleyGraph.sccRel, reachB_refl]

theorem sccRel_symm [DecidableEq Node] (g : CayleyGraph Node Label) (u v : Node) :
    g.sccRel u v = g.sccRel v u := by
  simp [CayleyGraph.sccRel, Bool.and_comm]

theorem sccRel_iff [DecidableEq Node] {g : CayleyGraph Node Label}
    (hE : ∀ e ∈ g.graph.edges, e.2 ∈ g.graph.nodes) {u v : Node}
    (hu : u ∈ g.graph.nodes) (hv : v ∈ g.graph.nodes) :
    g.sccRel u v = true ↔
      (Reaches g.graph.edges u v ∧ Reaches g.graph.edges v u) := by
  unfold CayleyGraph.sccRel
  rw [Bool.and_eq_true, reachB_iff_reaches hE hu, reachB_iff_reaches hE hv]

theorem sccRel_trans [DecidableEq Node] {g : CayleyGraph Node Label}
    (hE : ∀ e ∈ g.graph.edges, e.2 ∈ g.graph.nodes) {u v w : Node}
    (hu : u ∈ g.graph.nodes) (hv : v ∈ g.graph.nodes) (hw : w ∈ g.graph.nodes)
    (huv : g.sccRel u v = true) (hvw : g.sccRel v w = true) :
    g.sccRel u w = true := by
  have h1 := (sccRel_iff hE hu hv).1 huv
  have h2 := (sccRel_iff hE hv hw).1 hvw
  exact (sccRel_iff hE hu hw).2 ⟨h1.1.trans h2.1, h2.2.trans h1.2⟩

theorem mem_sccOf [DecidableEq Node] {g : CayleyGraph Node Label}
    {r v : Node} : v ∈ g.sccOf r ↔ v ∈ g.graph.nodes ∧ g.sccRel r v = true := by
  simp [CayleyGraph.sccOf, List.mem_filter]

theorem foldl_sccStep_subset [DecidableEq Node] {g : CayleyGraph Node Label}
    {S : List Node} :
    ∀ (l acc : List Node), acc ⊆ S → l ⊆ S →
      List.foldl (sccStep g) acc l ⊆ S := by
  intro l
  induction l with
  | nil => intro acc h _; simpa using h
  | cons u l ih =>
    intro acc hacc hl
    simp only [List.foldl_cons]
    refine ih _ ?_ (fun z hz => hl (List.mem_cons_of_mem _ hz))
    unfold sccStep
    split
    · exact hacc
    · intro z hz
      rcases List.mem_append.1 hz with hz | hz
      · exact hacc hz
      · simp only [List.mem_singleton] at hz
        exact hz ▸ hl (List.mem_cons_self u l)

theorem foldl_sccStep_mono [DecidableEq Node] {g : CayleyGraph Node Label} :
    ∀ (l acc : List Node), acc ⊆ List.foldl (sccStep g) acc l := by
  intro l
  induction l with
  | nil => intro acc; simp
  | cons u l ih =>
    intro acc
    simp only [List.foldl_cons]
    refine List.Subset.trans ?_ (ih (sccStep g acc u))
    unfold sccStep
    split
    · exact List.Subset.refl _
    · exact fun z hz => List.mem_append.2 (Or.inl hz)

theorem foldl_sccStep_cover [DecidableEq Node] {g : CayleyGraph Node Label} :
    ∀ (l acc : List Node) (u : Node), u ∈ l →
      ∃ r ∈ List.foldl (sccStep g) acc l, g.sccRel r u = true := by
  intro l
  induction l with
  | nil => intro acc u h; exact absurd h (List.not_mem_nil u)
  | cons x l ih =>
    intro acc u hu
    simp only [List.foldl_cons]
    rcases List.mem_cons.1 hu with rfl | hu
    · by_cases h : acc.any (fun r => g.sccRel r u) = true
      · obtain ⟨r, hr, hrel⟩ := List.any_eq_true.1 h
        refine ⟨r, foldl_sccStep_mono l _ ?_, hrel⟩
        unfold sccStep
        rw [if_pos h]
        exact hr
      · refine ⟨u, foldl_sccStep_mono l _ ?_, sccRel_refl g u⟩
        unfold sccStep
        rw [if_neg h]
        exact List.mem_append.2 (Or.inr (by simp))
    · exact ih _ u hu

theorem sccReps_subset [DecidableEq Node] (g : CayleyGraph Node Label) :
    g.sccReps ⊆ g.graph.nodes :=
  foldl_sccStep_subset _ _ (by simp) (List.Subset.refl _)

theorem sccReps_cover [DecidableEq Node] (g : CayleyGraph Node Label)
    {u : Node} (hu : u ∈ g.graph.nodes) :
    ∃ r ∈ g.sccReps, g.sccRel r u = true :=
  foldl_sccStep_cover _ _ u hu

theorem bool_eq_of_iff {a b : Bool} (h : a = true ↔ b = true) : a = b := by
  cases a <;> cases b <;> simp_all

/-- C1: for every graph, `strongly_connected_components()` returns a
collection of node sets partitioning the full node set — every node of the
graph appears in exactly one returned component, with no omissions and no
node in two components — and each component is a maximal subset in which
every node reaches every other node by a directed path (edge labels and
multiplicities ignored). -/
theorem scc_partitions_nodes_into_maximal_components [DecidableEq Node]
    (g : CayleyGraph Node Label)
    (hE : ∀ e ∈ g.graph.edges, e.1 ∈ g.graph.nodes ∧ e.2 ∈ g.graph.nodes) :
    (∀ x ∈ g.nodes, ∃ C ∈ g.strongly_connected_components, x ∈ C) ∧
    (∀ C ∈ g.strongly_connected_components, ∀ x ∈ C, x ∈ g.nodes) ∧
    (∀ C₁ ∈ g.strongly_connected_components, ∀ C₂ ∈ g.strongly_connected_components,
      ∀ x, x ∈ C₁ → x ∈ C₂ → C₁ = C₂) ∧
    (∀ C ∈ g.strongly_connected_components, ∀ u ∈ C, ∀ v ∈ C,
      Reaches g.graph.edges u v) ∧
    (∀ C ∈ g.strongly_connected_components, ∀ u ∈ C, ∀ w ∈ g.nodes,
      Reaches g.graph.edges u w → Reaches g.graph.edges w u → w ∈ C) := by
  have hE2 : ∀ e ∈ g.graph.edges, e.2 ∈ g.graph.nodes := fun e he => (hE e he).2
  refine ⟨?_, ?_, ?_, ?_, ?_⟩
  · intro x hx
    obtain ⟨r, hr, hrel⟩ := sccReps_cover g hx
    exact ⟨g.sccOf r, List.mem_map_of_mem _ hr, mem_sccOf.2 ⟨hx, hrel⟩⟩
  · intro C hC x hx
    obtain ⟨r, hr, rfl⟩ := List.mem_map.1 hC
    exact (mem_sccOf.1 hx).1
  · intro C₁ hC₁ C₂ hC₂ x hx₁ hx₂
    obtain ⟨r₁, hr₁, rfl⟩ := List.mem_map.1 hC₁
    obtain ⟨r₂, hr₂, rfl⟩ := List.mem_map.1 hC₂
    obtain ⟨hxN, hrel₁⟩ := mem_sccOf.1 hx₁
    obtain ⟨-, hrel₂⟩ := mem_sccOf.1 hx₂
    have hr₁N := sccReps_subset g hr₁
    have hr₂N := sccReps_subset g hr₂
    have hx₂' : g.sccRel x r₂ = true := by rw [sccRel_symm]; exact hrel₂
    have h12 : g.sccRel r₁ r₂ = true :=
      sccRel_trans hE2 hr₁N hxN hr₂N hrel₁ hx₂'
    unfold CayleyGraph.sccOf
    apply List.filter_congr
    intro v hv
    apply bool_eq_of_iff
    constructor
    · intro h1v
      have h21 : g.sccRel r₂ r₁ = true := by rw [sccRel_symm]; exact h12
      exact sccRel_trans hE2 hr₂N hr₁N hv h21 h1v
    · intro h2v
      exact sccRel_trans hE2 hr₁N hr₂N hv h12 h2v
  · intro C hC u hu v hv
    obtain ⟨r, hr, rfl⟩ := List.mem_map.1 hC
    obtain ⟨huN, hru⟩ := mem_sccOf.1 hu
    obtain ⟨hvN, hrv⟩ := mem_sccOf.1 hv
    have hrN := sccReps_subset g hr
    have h1 := (sccRel_iff hE2 hrN huN).1 hru
    have h2 := (sccRel_iff hE2 hrN hvN).1 hrv
    exact Relation.ReflTransGen.trans h1.2 h2.1
  · intro C hC u hu w hwN huw hwu
    obtain ⟨r, hr, rfl⟩ := List.mem_map.1 hC
    obtain ⟨huN, hru⟩ := mem_sccOf.1 hu
    have hrN := sccReps_subset g hr
    have h1 := (sccRel_iff hE2 hrN huN).1 hru
    exact mem_sccOf.2 ⟨hwN, (sccRel_iff hE2 hrN hwN).2
      ⟨Relation.ReflTransGen.trans h1.1 huw, Relation.ReflTransGen.trans hwu h1.2⟩⟩

/-- Witness for C1 at a concrete graph: the hypothesis holds and node `0`
lies in some returned component. -/
theorem scc_partitions_witness :
    (∀ e ∈ gW1.graph.edges, e.1 ∈ gW1.graph.nodes ∧ e.2 ∈ gW1.graph.nodes) ∧
    (∃ C ∈ gW1.strongly_connected_components, 0 ∈ C) :=
  ⟨by decide,
    (scc_partitions_nodes_into_maximal_components gW1 (by decide)).1 0 (by decide)⟩

theorem add_node_nodes [DecidableEq Node] (g : MultiDiGraph Node) (n : Node) :
    (g.add_node n).nodes = insertNew g.nodes n := by
  by_cases h : n ∈ g.nodes <;> simp [MultiDiGraph.add_node, insertNew, h]

theorem add_node_edges [DecidableEq Node] (g : MultiDiGraph Node) (n : Node) :
    (g.add_node n).edges = g.edges := by
  by_cases h : n ∈ g.nodes <;> simp [MultiDiGraph.add_node, h]

theorem add_edge_nodes [DecidableEq Node] (g : MultiDiGraph Node) (u v : Node) :
    (g.add_edge u v).nodes = insertNew (insertNew g.nodes u) v := by
  simp [MultiDiGraph.add_edge, add_node_nodes]

theorem add_edge_graph_edges [DecidableEq Node] (g : MultiDiGraph Node) (u v : Node) :
    (g.add_edge u v).edges = g.edges ++ [(u, v)] := by
  simp [MultiDiGraph.add_edge, add_node_edges]

theorem mem_insertNew [DecidableEq Node] {l : List Node} {m : Node} (n : Node)
    (h : m ∈ l) : m ∈ insertNew l n := by
  unfold insertNew
  split
  · exact h
  · exact List.mem_append.2 (Or.inl h)

theorem mem_insertNew_self [DecidableEq Node] (l : List Node) (n : Node) :
    n ∈ insertNew l n := by
  unfold insertNew
  split
  · assumption
  · exact List.mem_append.2 (Or.inr (by simp))

theorem edges_foldl [DecidableEq Node] :
    ∀ (ops : List (Op Node Label)) (g : CayleyGraph Node Label),
      (ops.foldl applyOp g).edges = g.edges ++ addEdgePairs ops := by
  intro ops
  induction ops with
  | nil => intro g; simp [addEdgePairs]
  | cons op rest ih =>
    intro g
    cases op with
    | addNode n =>
      simp only [List.foldl_cons, addEdgePairs]
      rw [ih]
      rfl
    | addEdge label s t =>
      simp only [List.foldl_cons, addEdgePairs]
      rw [ih]
      simp [applyOp, CayleyGraph._add_edge_with_label, CayleyGraph.edges]

/-- C4: for any sequence of `addEdge(label, source, target)` calls (possibly
interleaved with `addNode`s), `edges()` returns exactly the `(source, target)`
pairs of those calls, in call order, labels stripped; repeated calls with the
same endpoints appear as repeated identical pairs, never merged. -/
theorem edges_returns_pairs_in_call_order [DecidableEq Node]
    (ops : List (Op Node Label)) :
    (build ops).edges = addEdgePairs ops := by
  rw [build, edges_foldl]
  rfl

theorem mem_nodes_applyOp [DecidableEq Node] (g : CayleyGraph Node Label)
    (op : Op Node Label) {m : Node} (h : m ∈ g.graph.nodes) :
    m ∈ (applyOp g op).graph.nodes := by
  cases op with
  | addNode n =>
    simp only [applyOp, CayleyGraph._add_node, add_node_nodes]
    exact mem_insertNew n h
  | addEdge label s t =>
    simp only [applyOp, CayleyGraph._add_edge_with_label, add_edge_nodes]
    exact mem_insertNew t (mem_insertNew s h)

theorem label_edge_list_closed_foldl [DecidableEq Node] :
    ∀ (ops : List (Op Node Label)) (g : CayleyGraph Node Label),
      (∀ e ∈ g.label_edge_list,
        e.2.1 ∈ g.graph.nodes ∧ e.2.2 ∈ g.graph.nodes) →
      ∀ e ∈ (ops.foldl applyOp g).label_edge_list,
        e.2.1 ∈ (ops.foldl applyOp g).graph.nodes ∧
        e.2.2 ∈ (ops.foldl applyOp g).graph.nodes := by
  intro ops
  induction ops with
  | nil => intro g h; simpa using h
  | cons op rest ih =>
    intro g h
    simp only [List.foldl_cons]
    refine ih _ ?_
    intro e he
    cases op with
    | addNode n =>
      have he' : e ∈ g.label_edge_list := he
      exact ⟨mem_nodes_applyOp g (.addNode n) (h e he').1,
        mem_nodes_applyOp g (.addNode n) (h e he').2⟩
    | addEdge label s t =>
      have he' : e ∈ g.label_edge_list ++ [(label, (s, t))] := he
      rcases List.mem_append.1 he' with he'' | he''
      · exact ⟨mem_nodes_applyOp g (.addEdge label s t) (h e he'').1,
          mem_nodes_applyOp g (.addEdge label s t) (h e he'').2⟩
      · simp only [List.mem_singleton] at he''
        subst he''
        constructor
        · show s ∈ (g.graph.add_edge s t).nodes
          rw [add_edge_nodes]
          exact mem_insertNew t (mem_insertNew_self _ s)
        · show t ∈ (g.graph.add_edge s t).nodes
          rw [add_edge_nodes]
          exact mem_insertNew_self _ t

theorem graph_edges_closed_foldl [DecidableEq Node] :
    ∀ (ops : List (Op Node Label)) (g : CayleyGraph Node Label),
      (∀ e ∈ g.graph.edges, e.1 ∈ g.graph.nodes ∧ e.2 ∈ g.graph.nodes) →
      ∀ e ∈ (ops.foldl applyOp g).graph.edges,
        e.1 ∈ (ops.foldl applyOp g).graph.nodes ∧
        e.2 ∈ (ops.foldl applyOp g).graph.nodes := by
  intro ops
  induction ops with
  | nil => intro g h; simpa using h
  | cons op rest ih =>
    intro g h
    simp only [List.foldl_cons]
    refine ih _ ?_
    intro e he
    cases op with
    | addNode n =>
      have he' : e ∈ g.graph.edges := by
        simpa [applyOp, CayleyGraph._add_node, add_node_edges] using he
      exact ⟨mem_nodes_applyOp g (.addNode n) (h e he').1,
        mem_nodes_applyOp g (.addNode n) (h e he').2⟩
    | addEdge label s t =>
      have he' : e ∈ g.graph.edges ++ [(s, t)] := by
        simpa [applyOp, CayleyGraph._add_edge_with_label, add_edge_graph_edges]
          using he
      rcases List.mem_append.1 he' with he'' | he''
      · exact ⟨mem_nodes_applyOp g (.addEdge label s t) (h e he'').1,
          mem_nodes_applyOp g (.addEdge label s t) (h e he'').2⟩
      · simp only [List.mem_singleton] at he''
        subst he''
        constructor
        · show s ∈ (applyOp g (.addEdge label s t)).graph.nodes
          simp only [applyOp, CayleyGraph._add_edge_with_label, add_edge_nodes]
          exact mem_insertNew t (mem_insertNew_self _ s)
        · show t ∈ (applyOp g (.addEdge label s t)).graph.nodes
          simp only [applyOp, CayleyGraph._add_edge_with_label, add_edge_nodes]
          exact mem_insertNew_self _ t

theorem build_graph_edges_closed [DecidableEq Node]
    (ops : List (Op Node Label)) :
    ∀ e ∈ (build ops).graph.edges,
      e.1 ∈ (build ops).graph.nodes ∧ e.2 ∈ (build ops).graph.nodes :=
  graph_edges_closed_foldl ops CayleyGraph.init (by simp [CayleyGraph.init, MultiDiGraph.empty])

/-- C5: after every sequence of `addNode`/`addEdge` operations, every node
referenced as source or target of a recorded edge is present in the node
set; `addEdge(label, source, target)` appends `(label, (source, target))` to
the edge sequence and inserts both endpoints into the node set if absent, so
the invariant holds even when edges are added before their endpoint nodes. -/
theorem edge_endpoints_always_present [DecidableEq Node] :
    (∀ (ops : List (Op Node Label)), ∀ e ∈ (build ops).label_edge_list,
      e.2.1 ∈ (build ops).nodes ∧ e.2.2 ∈ (build ops).nodes) ∧
    (∀ (g : CayleyGraph Node Label) (label : Label) (s t : Node),
      (g._add_edge_with_label label (s, t)).label_edge_list
          = g.label_edge_list ++ [(label, (s, t))] ∧
      s ∈ (g._add_edge_with_label label (s, t)).nodes ∧
      t ∈ (g._add_edge_with_label label (s, t)).nodes) := by
  constructor
  · intro ops
    exact label_edge_list_closed_foldl ops CayleyGraph.init
      (by simp [CayleyGraph.init])
  · intro g label s t
    refine ⟨rfl, ?_, ?_⟩
    · show s ∈ (g.graph.add_edge s t).nodes
      rw [add_edge_nodes]
      exact mem_insertNew t (mem_insertNew_self _ s)
    · show t ∈ (g.graph.add_edge s t).nodes
      rw [add_edge_nodes]
      exact mem_insertNew_self _ t

/-- C6: node insertion is idempotent — adding a node that is already present
leaves `nodes()` unchanged: no duplicate entry, no reorder. -/
theorem add_node_idempotent [DecidableEq Node] (g : CayleyGraph Node Label)
    (n : Node) (h : n ∈ g.nodes) : (g._add_node n).nodes = g.nodes := by
  have h' : n ∈ g.graph.nodes := h
  simp [CayleyGraph._add_node, CayleyGraph.nodes, MultiDiGraph.add_node, h']

/-- Witness for C6: re-adding node `0`, already present in `gW1`, leaves
`nodes()` unchanged. -/
theorem add_node_idempotent_witness :
    0 ∈ gW1.nodes ∧ (gW1._add_node 0).nodes = gW1.nodes :=
  ⟨by decide, add_node_idempotent gW1 0 (by decide)⟩

/-- C10: `_add_node` leaves the recorded labeled-edge sequence unchanged —
`edges()` (and the labeled edge list, and the multigraph edge list) is
identical before and after the call; only the node set may change. -/
theorem add_node_frame_edges [DecidableEq Node] (g : CayleyGraph Node Label)
    (n : Node) :
    (g._add_node n).edges = g.edges ∧
    (g._add_node n).label_edge_list = g.label_edge_list ∧
    (g._add_node n).graph.edges = g.graph.edges :=
  ⟨rfl, rfl, add_node_edges g.graph n⟩

theorem build_nodes_foldl [DecidableEq Node] :
    ∀ (ops : List (Op Node Label)) (g : CayleyGraph Node Label),
      (ops.foldl applyOp g).graph.nodes
        = (nodeRefs ops).foldl insertNew g.graph.nodes := by
  intro ops
  induction ops with
  | nil => intro g; simp [nodeRefs]
  | cons op rest ih =>
    intro g
    cases op with
    | addNode n =>
      simp only [List.foldl_cons, nodeRefs]
      rw [ih]
      congr 1
      exact add_node_nodes g.graph n
    | addEdge label s t =>
      simp only [List.foldl_cons, nodeRefs]
      rw [ih]
      congr 1
      exact add_edge_nodes g.graph s t

theorem foldl_insertNew_nodup [DecidableEq Node] :
    ∀ (l acc : List Node), acc.Nodup → (l.foldl insertNew acc).Nodup := by
  intro l
  induction l with
  | nil => intro acc h; simpa using h
  | cons x l ih =>
    intro acc h
    simp only [List.foldl_cons]
    apply ih
    by_cases hx : x ∈ acc
    · simpa [insertNew, hx] using h
    · simp [insertNew, hx, List.nodup_append, h]

/-- C7: `nodes()` returns the node set as a sequence in first-insertion
order — every node referenced by the mutation sequence appears exactly once,
at the position of its first reference — so that the `i`-th element of
`nodes()` positionally corresponds to the `i`-th bucket of the adjacency
list built from the graph (`computeAdjacencies`). -/
theorem nodes_first_insertion_order [DecidableEq Node]
    (ops : List (Op Node Label)) :
    (build ops).nodes = firstOccurrences (nodeRefs ops) ∧
    (build ops).nodes.Nodup ∧
    (computeAdjacencies (build ops).nodes (build ops).edges).length
      = (build ops).nodes.length ∧
    (∀ (i : Nat) (v : Node), (build ops).nodes[i]? = some v →
      (computeAdjacencies (build ops).nodes (build ops).edges)[i]?
        = some (((build ops).edges.filter
            (fun e => decide (e.1 = v))).map (fun e => e.2))) := by
  have h1 : (build ops).nodes = firstOccurrences (nodeRefs ops) := by
    show (ops.foldl applyOp CayleyGraph.init).graph.nodes = _
    rw [build_nodes_foldl ops CayleyGraph.init]
    rfl
  refine ⟨h1, ?_, ?_, ?_⟩
  · rw [h1]
    exact foldl_insertNew_nodup _ _ List.nodup_nil
  · simp [computeAdjacencies]
  · intro i v hv
    simp [computeAdjacencies, List.getElem?_map, hv]

/-- Witness for C7: at `gW1`, position `0` of `nodes()` is node `0` and
bucket `0` of the computed adjacency list is the list of its edge targets. -/
theorem nodes_first_insertion_order_witness :
    gW1.nodes[0]? = some 0 ∧
    (computeAdjacencies gW1.nodes gW1.edges)[0]?
      = some ((gW1.edges.filter (fun e => decide (e.1 = 0))).map (fun e => e.2)) :=
  ⟨by decide,
    (nodes_first_insertion_order [Op.addEdge 0 0 1, Op.addEdge 1 1 0]).2.2.2
      0 0 (by decide)⟩

theorem sum_map_add (V : List Node) (f g : Node → Nat) :
    (V.map (fun v => f v + g v)).sum = (V.map f).sum + (V.map g).sum := by
  induction V with
  | nil => simp
  | cons x V ih =>
    simp only [List.map_cons, List.sum_cons, ih]
    omega

theorem sum_map_indicator [DecidableEq Node] :
    ∀ (V : List Node), V.Nodup → ∀ (a : Node), a ∈ V →
      (V.map (fun v => if a = v then 1 else 0)).sum = 1 := by
  intro V
  induction V with
  | nil => intro _ a ha; cases ha
  | cons x V ih =>
    intro hnd a ha
    rcases List.mem_cons.1 ha with rfl | ha'
    · have hnx : a ∉ V := (List.nodup_cons.1 hnd).1
      have h0 : ∀ y ∈ V.map (fun v => if a = v then 1 else 0), y = 0 := by
        intro y hy
        obtain ⟨v, hv, rfl⟩ := List.mem_map.1 hy
        have hne : a ≠ v := fun h => hnx (h ▸ hv)
        simp [hne]
      simp only [List.map_cons, List.sum_cons, if_pos rfl]
      rw [List.sum_eq_zero h0]
      simp
    · have hx : a ≠ x := fun h => (List.nodup_cons.1 hnd).1 (h ▸ ha')
      simp only [List.map_cons, List.sum_cons, if_neg hx]
      simpa using ih (List.nodup_cons.1 hnd).2 a ha'

theorem sum_countP_sources [DecidableEq Node] (V : List Node) (hnd : V.Nodup) :
    ∀ (E : List (Node × Node)), (∀ e ∈ E, e.1 ∈ V) →
      (V.map (fun v => E.countP (fun e => decide (e.1 = v)))).sum = E.length := by
  intro E
  induction E with
  | nil =>
    intro _
    simp only [List.countP_nil, List.length_nil]
    exact List.sum_eq_zero (by
      intro y hy
      obtain ⟨v, -, rfl⟩ := List.mem_map.1 hy
      rfl)
  | cons e E ih =>
    intro hsrc
    have hmem : e.1 ∈ V := hsrc e (List.mem_cons_self e E)
    have ihE := ih (fun x hx => hsrc x (List.mem_cons_of_mem e hx))
    have hfun : (fun v => (e :: E).countP (fun x => decide (x.1 = v)))
        = fun v => E.countP (fun x => decide (x.1 = v))
            + (if e.1 = v then 1 else 0) := by
      funext v
      rw [List.countP_cons]
      by_cases h : e.1 = v <;> simp [h]
    rw [List.length_cons, hfun, sum_map_add, ihE,
      sum_map_indicator V hnd e.1 hmem]

theorem totalEntries_computeAdjacencies [DecidableEq Node]
    (V : List Node) (hnd : V.Nodup) (E : List (Node × Node))
    (hsrc : ∀ e ∈ E, e.1 ∈ V) :
    totalEntries (computeAdjacencies V E) = E.length := by
  unfold totalEntries computeAdjacencies
  rw [List.map_map]
  have hfun : (List.length ∘ fun v =>
      ((E.filter (fun e => decide (e.1 = v))).map (fun e => e.2)))
      = fun v => E.countP (fun e => decide (e.1 = v)) := by
    funext v
    simp [List.countP_eq_length_filter]
  rw [hfun]
  exact sum_countP_sources V hnd E hsrc

/-- Counterexample to C2 as stated: `gStale` is a graph whose
`_adjacencies_list` was assigned by the external builder while the graph had
one edge, then mutated by one more `addEdge`.  `ordered_adjacencies()` still
returns the stale stored list: its total entry count is `1` while two edges
have been added — the result does not reflect the mutation. -/
theorem ordered_adjacencies_stale_counterexample :
    gStale.ordered_adjacencies = some [[1], []] ∧
    gStale.edges.length = 2 ∧
    totalEntries [[1], []] ≠ gStale.edges.length := by
  decide

/-- C2 amended: `ordered_adjacencies()` returns the stored
`_adjacencies_list`, which the class itself never assigns or recomputes.  At
a state just produced by the external builder (`set_adjacencies`) the claim's
positional and cardinality properties hold: bucket `i` is the
insertion-ordered list of targets of edges whose source is the `i`-th node
of `nodes()`, and the total number of entries equals the number of edges
added.  But the stored list is not recomputed on mutation: a subsequent
`addEdge` leaves `ordered_adjacencies()` unchanged, hence stale. -/
theorem ordered_adjacencies_builder_contract [DecidableEq Node]
    (g : CayleyGraph Node Label) (hnd : g.nodes.Nodup)
    (hsrc : ∀ e ∈ g.edges, e.1 ∈ g.nodes) :
    (set_adjacencies g).ordered_adjacencies
        = some (computeAdjacencies g.nodes g.edges) ∧
    (∀ (i : Nat) (v : Node), g.nodes[i]? = some v →
      (computeAdjacencies g.nodes g.edges)[i]?
        = some ((g.edges.filter (fun e => decide (e.1 = v))).map (fun e => e.2))) ∧
    totalEntries (computeAdjacencies g.nodes g.edges) = g.edges.length ∧
    (∀ (label : Label) (s t : Node),
      (applyOp (set_adjacencies g) (.addEdge label s t)).ordered_adjacencies
        = (set_adjacencies g).ordered_adjacencies) := by
  refine ⟨rfl, ?_, ?_, ?_⟩
  · intro i v hv
    simp [computeAdjacencies, List.getElem?_map, hv]
  · exact totalEntries_computeAdjacencies g.nodes hnd g.edges hsrc
  · intro label s t
    rfl

/-- Witness for the amended C2 at `gBase`: its hypotheses hold and the total
entry count of the freshly computed adjacency list equals the edge count. -/
theorem ordered_adjacencies_builder_contract_witness :
    gBase.nodes.Nodup ∧
    totalEntries (computeAdjacencies gBase.nodes gBase.edges)
      = gBase.edges.length :=
  ⟨by decide,
    (ordered_adjacencies_builder_contract gBase (by decide) (by decide)).2.2.1⟩

/-- C3: with both graphs' adjacency lists assigned, `G1 == G2` returns `True`
iff `ordered_adjacencies()` of `G1` and `G2` are equal element-for-element
(same length and same adjacency sequence at each position — list equality),
and `G1 != G2` returns `True` iff `G1 == G2` does not; in particular two
graphs whose ordered adjacencies differ positionally compare unequal. -/
theorem py_eq_iff_ordered_adjacencies [DecidableEq Node]
    (g h : CayleyGraph Node Label) (a b : List (List Node))
    (hg : g.ordered_adjacencies = some a) (hh : h.ordered_adjacencies = some b) :
    (g.py_eq h = .ok true ↔ a = b) ∧ (g.py_ne h = .ok true ↔ ¬ a = b) := by
  have he : g.py_eq h = .ok (decide (a = b)) := by
    unfold CayleyGraph.py_eq
    rw [hg, hh]
  constructor
  · rw [he]
    constructor
    · intro hok
      have := PyResult.ok.inj hok
      simpa using this
    · intro hab
      simp [hab]
  · unfold CayleyGraph.py_ne
    rw [he]
    constructor
    · intro hok
      have := PyResult.ok.inj hok
      simp only [Bool.not_eq_eq_eq_not, Bool.not_true] at this
      simp [decide_eq_false_iff_not] at this
      exact this
    · intro hab
      simp [hab]

/-- Witness for C3: comparing `gNat` with itself returns `True`, matching
equality of the two (identical) adjacency lists. -/
theorem py_eq_iff_ordered_adjacencies_witness :
    gNat.ordered_adjacencies = some [[0]] ∧
    (gNat.py_eq gNat = .ok true ↔ [[0]] = ([[0]] : List (List Nat))) :=
  ⟨by decide,
    (py_eq_iff_ordered_adjacencies gNat gNat [[0]] [[0]] (by decide) (by decide)).1⟩

/-- C8: `strongly_connected_components()` is a total function (the traversal
cannot diverge on self-loops or parallel edges); on any graph with a node `n`
carrying an edge to itself it returns a component containing `n`; and the
graph with a single node and no edges yields exactly one component,
containing only that node. -/
theorem scc_self_loop_and_singleton [DecidableEq Node] :
    (∀ (g : CayleyGraph Node Label) (n : Node), n ∈ g.nodes →
      (n, n) ∈ g.graph.edges →
      ∃ C ∈ g.strongly_connected_components, n ∈ C) ∧
    (∀ (n : Node),
      (build [Op.addNode n] : CayleyGraph Node Label).strongly_connected_components
        = [[n]]) := by
  constructor
  · intro g n hn _
    obtain ⟨r, hr, hrel⟩ := sccReps_cover g hn
    exact ⟨g.sccOf r, List.mem_map_of_mem _ hr, mem_sccOf.2 ⟨hn, hrel⟩⟩
  · intro n
    simp [build, applyOp, CayleyGraph.init, CayleyGraph._add_node,
      MultiDiGraph.empty, MultiDiGraph.add_node,
      CayleyGraph.strongly_connected_components, CayleyGraph.sccReps,
      sccStep, CayleyGraph.sccOf, CayleyGraph.sccRel, reachB]

/-- Witness for C8: `gBase` has a self-loop at `0`, the hypotheses hold, and
some returned component contains `0`. -/
theorem scc_self_loop_and_singleton_witness :
    0 ∈ gBase.nodes ∧ (0, 0) ∈ gBase.graph.edges ∧
    ∃ C ∈ gBase.strongly_connected_components, 0 ∈ C :=
  ⟨by decide, by decide,
    scc_self_loop_and_singleton.1 gBase 0 (by decide) (by decide)⟩

/-- Counterexample to C9 as stated: comparing `gNat` (nodes of type `Nat`)
against `gForeign` (nodes of type `String`, an incompatible node type) does
not fail fast with an error: Python compares the adjacency lists elementwise
and silently returns `False`. -/
theorem py_eq_dyn_foreign_counterexample :
    gNat.py_eq_dyn (.foreignGraph gForeign : PyObj Nat String Nat Nat)
      = .ok false := by
  decide

/-- C9 amended: comparing against an object with no `ordered_adjacencies`
attribute raises `AttributeError` (fails fast); but comparing against a
graph built with an incompatible node type does not raise — it silently
returns a boolean computed by Python's elementwise list comparison. -/
theorem py_eq_dyn_error_cases [DecidableEq Node] [DecidableEq Node2]
    (g : CayleyGraph Node Label) (a : List (List Node))
    (hg : g.ordered_adjacencies = some a) :
    (g.py_eq_dyn (.other : PyObj Node Node2 Label Label2) = .attributeError) ∧
    (∀ (h : CayleyGraph Node2 Label2) (b : List (List Node2)),
      h.ordered_adjacencies = some b →
      g.py_eq_dyn (.foreignGraph h : PyObj Node Node2 Label Label2)
        = .ok (crossListEq a b)) := by
  constructor
  · simp [CayleyGraph.py_eq_dyn, hg]
  · intro h b hb
    simp [CayleyGraph.py_eq_dyn, hg, hb]

/-- Witness for the amended C9: `gNat` compared with a non-graph object
raises, and compared with the `String`-node graph returns a silent boolean. -/
theorem py_eq_dyn_error_cases_witness :
    gNat.ordered_adjacencies = some [[0]] ∧
    gNat.py_eq_dyn (.other : PyObj Nat String Nat Nat) = .attributeError :=
  ⟨by decide, (py_eq_dyn_error_cases gNat [[0]] (by decide)).1⟩

/-- Witness for C5: in the graph built by a single `addEdge` before any
`addNode`, the recorded edge's endpoints are both present in the node set. -/
theorem edge_endpoints_always_present_witness :
    ((0, (0, 1)) ∈ (build [Op.addEdge 0 0 1] : CayleyGraph Nat Nat).label_edge_list) ∧
    ((0, (0, 1)).2.1 ∈ (build [Op.addEdge 0 0 1] : CayleyGraph Nat Nat).nodes ∧
      (0, (0, 1)).2.2 ∈ (build [Op.addEdge 0 0 1] : CayleyGraph Nat Nat).nodes) :=
  ⟨by decide,
    edge_endpoints_always_present.1 [Op.addEdge 0 0 1] (0, (0, 1)) (by decide)⟩
